import Mathlib

/-!
Verification of the APE data pipeline (`eval/tasks/nmt/utils.py`) and the
training-loop bookkeeping of `nmt.py`, as a shallow embedding in Lean.

Text is modelled as `List Char` (`Str`); Python's whitespace splitting,
line iteration and tab splitting are embedded as structurally recursive
functions so that all definitions evaluate by kernel reduction.
-/

namespace APE

/-- Text, modelled as a list of characters. -/
abbrev Str := List Char

/-- Whitespace characters recognized by the model of Python's `str.split()`
(space, tab, newline). -/
def isWs (c : Char) : Bool := c = ' ' || c = '\t' || c = '\n'

/-- Split a character list at every character satisfying `p`, keeping empty
segments; returns one more segment than there are separators. -/
def splitAny (p : Char → Bool) : Str → List Str
  | [] => [[]]
  | c :: cs =>
    let r := splitAny p cs
    if p c then [] :: r else (c :: r.headD []) :: r.tail

/-- Model of Python `line.split()`: split on whitespace, dropping empty
segments. -/
def pySplit (s : Str) : List Str := (splitAny isWs s).filter (fun t => t ≠ [])

/-- Model of iterating a file's lines (as in `readlines`) followed by
`rstrip('\n')` per line: newline-separated segments, with the trailing empty
segment (when the content ends in a newline, or is empty) dropped. -/
def fileLines (s : Str) : List Str :=
  let segs := splitAny (fun c => c = '\n') s
  if segs.getLast? = some [] then segs.dropLast else segs

/-- Decimal digit character (for `n < 10`). -/
def digitChar (n : Nat) : Char := Char.ofNat (48 + n)

/-- Fuelled decimal rendering of a natural number. -/
def natReprAux : Nat → Nat → Str
  | 0, _ => []
  | fuel + 1, n =>
    if n < 10 then [digitChar n] else natReprAux fuel (n / 10) ++ [digitChar (n % 10)]

/-- Decimal rendering of a natural number, as used by `f-string` formatting of
the count in `write_vocab`. -/
def natRepr (n : Nat) : Str := natReprAux (n + 1) n

/-- Stable insertion of `x` into `l`: `x` is placed before the first element
`y` with `le x y`. -/
def insertLe (le : α → α → Bool) (x : α) : List α → List α
  | [] => [x]
  | y :: ys => if le x y then x :: y :: ys else y :: insertLe le x ys

/-- Stable insertion sort, modelling Python's stable `sorted`. -/
def isort (le : α → α → Bool) : List α → List α
  | [] => []
  | x :: xs => insertLe le x (isort le xs)

/-- Model of Python's `sep.join(parts)`. -/
def joinSep (sep : Str) : List Str → Str
  | [] => []
  | [l] => l
  | l :: l2 :: ls => l ++ sep ++ joinSep sep (l2 :: ls)

/-- The start-of-sequence marker text. -/
def sosStr : Str := "<SOS>".toList

/-- The end-of-sequence marker text. -/
def eosStr : Str := "<EOS>".toList

/-- The unknown-token marker text. -/
def unkStr : Str := "<UNK>".toList

/-- Add one observed word to a frequency table, incrementing its count if the
word is present and appending a fresh entry otherwise; preserves first-seen
order as Python's `Counter` does. -/
def bump : List (Str × Nat) → Str → List (Str × Nat)
  | [], w => [(w, 1)]
  | (k, c) :: rest, w =>
    if k = w then (k, c + 1) :: rest else (k, c) :: bump rest w

/-- Frequency table of a word stream, in first-occurrence order with counts
(model of `collections.Counter`). -/
def counter (ws : List Str) : List (Str × Nat) := ws.foldl bump []

/-- `build_vocab`: count every whitespace-separated word of every line of
every given file. -/
def build_vocab (files : List Str) : List (Str × Nat) :=
  counter ((files.flatMap fileLines).flatMap pySplit)

/-- Python's `sorted(pairs, key=count, reverse=True)`: stable sort by
non-increasing count. -/
def sortByCountDesc (table : List (Str × Nat)) : List (Str × Nat) :=
  isort (fun p q => Nat.ble q.2 p.2) table

/-- `write_vocab`: the file content produced by writing the three reserved
marker lines followed by one `token TAB count` line per table entry, sorted by
descending count and joined with newlines. -/
def write_vocab (table : List (Str × Nat)) : Str :=
  "<SOS>\n<EOS>\n<UNK>\n".toList ++
    joinSep ['\n'] ((sortByCountDesc table).map (fun p => p.1 ++ '\t' :: natRepr p.2))

/-- Pair every element with a sequential id starting at `n` (model of Python's
`enumerate` used when loading the vocabulary). -/
def assignIds : Nat → List Str → List (Str × Nat)
  | _, [] => []
  | n, t :: ts => (t, n) :: assignIds (n + 1) ts

/-- `read_vocab`: one entry per file line, keyed by the text before the first
tab, with the line number as id. -/
def read_vocab (content : Str) : List (Str × Nat) :=
  assignIds 0 ((fileLines content).map (fun k => (splitAny (fun c => c = '\t') k).headD []))

/-- Lookup in a loaded vocabulary: as for a Python `dict` built by
comprehension, the last entry for a duplicated key wins; as for
`defaultdict(lambda: 2, ...)`, an absent key yields 2. -/
def vocabGet (v : List (Str × Nat)) (tok : Str) : Nat :=
  (((v.filter (fun p => p.1 = tok)).getLast?).map Prod.snd).getD 2

/-- `vectorize`: map each whitespace token of the line through the vocabulary;
when `wrap` holds, surround with the ids looked up for the start and end
markers. -/
def vectorize (line : Str) (v : List (Str × Nat)) (wrap : Bool) : List Nat :=
  let tokens := (pySplit line).map (fun w => vocabGet v w)
  if wrap then vocabGet v sosStr :: (tokens ++ [vocabGet v eosStr]) else tokens

/-- Modelled from the spec: the derived reverse mapping (id → token) of §3,
whose construction is not part of the sources under `src/`; for a vocabulary
entry list it returns the token of the (last) entry carrying the given id, and
nothing for an unmapped id. -/
def ivocabFind (v : List (Str × Nat)) (i : Nat) : Option Str :=
  ((v.filter (fun p => p.2 = i)).getLast?).map Prod.fst

/-- Map every id through the reverse mapping, failing if any id is unmapped
(model of the `KeyError` a Python `dict` indexing would raise). -/
def mapIv (iv : Nat → Option Str) : List Nat → Option (List Str)
  | [] => some []
  | t :: ts =>
    match iv t, mapIv iv ts with
    | some s, some ss => some (s :: ss)
    | _, _ => none

/-- `devectorize`: map ids back to subwords; when `unwrap` holds, drop the
first subword and truncate at the first end-marker; join with single spaces. -/
def devectorize (tokens : List Nat) (iv : Nat → Option Str) (unwrap : Bool) : Option Str :=
  match mapIv iv tokens with
  | none => none
  | some subwords =>
    some (joinSep [' ']
      (if unwrap then (subwords.drop 1).takeWhile (fun sw => sw ≠ eosStr) else subwords))

/-- A sequence pair: one source and one target id sequence (`PairSample`). -/
abbrev PairSample := List Int × List Int

/-- Combined token count of a pair, `sum(map(len, pair))`. -/
def tokenCount (p : PairSample) : Nat := p.1.length + p.2.length

/-- `sorted(dataset, key=lambda pair: sum(map(len, pair)))`: stable ascending
sort by combined token count. -/
def sortPairs (ds : List PairSample) : List PairSample :=
  isort (fun a b => Nat.ble (tokenCount a) (tokenCount b)) ds

/-- Python slice `l[k::w]`: take the element once the countdown hits 0, then
restart the countdown at `w - 1`. -/
def strideAux (w : Nat) : Nat → List α → List α
  | _, [] => []
  | 0, x :: xs => x :: strideAux w (w - 1) xs
  | k + 1, _ :: xs => strideAux w k xs

/-- `split_ds`: sort the dataset by combined token count, then take the slice
`sorted_dataset[rank::world_size]`. -/
def split_ds (dataset : List PairSample) (world_size rank : Nat) : List PairSample :=
  strideAux world_size rank (sortPairs dataset)

/-- State-passing rendering of `split_ds` for its effect on the caller's list:
the call returns its shard together with the caller's dataset as the call
leaves it.  `sorted(dataset, ...)` allocates a fresh list (rebinding only the
local name) and slicing reads without writing, so the post-state is the
argument itself. -/
def split_ds_run (dataset : List PairSample) (world_size rank : Nat) :
    List PairSample × List PairSample :=
  (split_ds dataset world_size rank, dataset)

/-- Heap state of the batch-building loop of `Dataloader.get_batches`.  Python
appends list *references* into `batches` and keeps mutating the referenced
list object afterwards, so the embedding keeps every list object ever bound to
`batch` in `objs` (its.generation index is its address), the appended
references in `refs`, the address of the currently accumulating object in
`cur`, and `num_tokens` in `num`. -/
structure BatchState where
  objs : List (List PairSample)
  refs : List Nat
  cur : Nat
  num : Nat

/-- One iteration of the `for idx in indices` loop of `get_batches`: on
overflow, append a reference to the current batch object and start a fresh
object holding only this sample; otherwise mutate the current object in
place.  Then (still inside the loop body, as in the source) append a
reference to the current object whenever it is non-empty. -/
def batchStep (dataset : List PairSample) (tokenCounts : List Nat) (budget : Nat)
    (s : BatchState) (idx : Nat) : BatchState :=
  let size := tokenCounts.getD idx 0
  let s1 :=
    if budget < s.num + size then
      { objs := s.objs ++ [[dataset.getD idx ([], [])]], refs := s.refs ++ [s.cur],
        cur := s.objs.length, num := size }
    else
      { objs := s.objs.set s.cur (s.objs.getD s.cur [] ++ [dataset.getD idx ([], [])]),
        refs := s.refs, cur := s.cur, num := s.num + size }
  if s1.objs.getD s1.cur [] = [] then s1 else { s1 with refs := s1.refs ++ [s1.cur] }

/-- Initial loop state: `batches, num_tokens, batch = [], 0, []`. -/
def initBatchState : BatchState := ⟨[[]], [], 0, 0⟩

/-- The batch list yielded by one `get_batches` pass for a given order of
indices: run the loop, then resolve every appended reference to the final
contents of the object it points to. -/
def runBatches (dataset : List PairSample) (budget : Nat) (indices : List Nat) :
    List (List PairSample) :=
  let fin := indices.foldl (batchStep dataset (dataset.map tokenCount) budget) initBatchState
  fin.refs.map (fun r => fin.objs.getD r [])

/-- `sorted(range(len(token_counts)), key=lambda idx: token_counts[idx])`. -/
def sortedIndices (tc : List Nat) : List Nat :=
  isort (fun i j => Nat.ble (tc.getD i 0) (tc.getD j 0)) (List.range tc.length)

/-- One invocation of `Dataloader.get_batches`, with the two uses of `shuffle`
(a uniform random permutation within each equal-count group and of the final
batch list) instantiated to the identity permutation — when all token counts
are distinct every group is a singleton, so this is the only possible group
order.  Properties meant to hold for every random outcome are stated over an
arbitrary index order via `runBatches`. -/
def get_batches (dataset : List PairSample) (budget : Nat) : List (List PairSample) :=
  runBatches dataset budget (sortedIndices (dataset.map tokenCount))

/-- Right-pad an id sequence to length `n` with the sentinel `-1`
(`pad_sequence(..., batch_first=True, padding_value=-1)` pads every sequence
of the batch to the longest one). -/
def padTo (n : Nat) (xs : List Int) : List Int := xs ++ List.replicate (n - xs.length) (-1)

/-- Length of the longest sequence in a batch. -/
def maxLen (xss : List (List Int)) : Nat := xss.foldr (fun xs m => max xs.length m) 0

/-- The collator built by `make_collator` (device transfer elided): padded
source and target id matrices, the source validity mask `input_ids.ne(-1)`,
and the lower-triangular causal mask of size `output_ids.shape[1]` (the
leading broadcast dimension added by `[None, :]` is elided). -/
def collate_fn (samples : List PairSample) :
    List (List Int) × List (List Int) × List (List Bool) × List (List Bool) :=
  let srcs := samples.map Prod.fst
  let tgts := samples.map Prod.snd
  let input_ids := srcs.map (padTo (maxLen srcs))
  let output_ids := tgts.map (padTo (maxLen tgts))
  let input_mask := input_ids.map (fun row => row.map (fun x => x != -1))
  let causal_mask := (List.range (maxLen tgts)).map
      (fun i => (List.range (maxLen tgts)).map (fun j => decide (j ≤ i)))
  (input_ids, output_ids, input_mask, causal_mask)

/-- One update of the running smoothed training loss, as written in `run`:
`train_rml = loss.item() if train_rml is None else (0.98 * train_rml + 0.02 *
loss.item())`. -/
def rmlStep (rml : Option ℚ) (loss : ℚ) : Option ℚ :=
  some (match rml with
    | none => loss
    | some r => 0.98 * r + 0.02 * loss)

/-- The initial value of `train_rml` in `run`: the source initializes it with
`steps, updates, train_rml = 0, 0, 0` — the number `0`, not `None`. -/
def trainRmlInit : Option ℚ := some 0

/-- The smoothed training loss after consuming the given raw micro-batch
losses in order. -/
def rmlRun (losses : List ℚ) : Option ℚ := losses.foldl rmlStep trainRmlInit

/-- Per-worker counters of the training loop, extended with the number of
times the rank has entered the metric-reduction/evaluation block. -/
structure LoopState where
  steps : Nat
  updates : Nat
  evals : Nat
deriving DecidableEq

/-- One micro-batch of the training loop of `run`: increment `steps`; on
`steps % update_every == 0` count an optimizer update; then — checked on
every micro-batch, as in the source — enter the metric-reduction/evaluation
block when `rank == 0 and updates % 50 == 0` (50 is the hard-coded eval
cadence). -/
def microStep (updateEvery rank : Nat) (s : LoopState) : LoopState :=
  let steps := s.steps + 1
  let updates := if steps % updateEvery = 0 then s.updates + 1 else s.updates
  let evals := if rank = 0 ∧ updates % 50 = 0 then s.evals + 1 else s.evals
  ⟨steps, updates, evals⟩

/-- The loop counters after `n` micro-batches, starting from
`steps, updates = 0, 0` and no evaluations. -/
def runLoop (updateEvery rank n : Nat) : LoopState :=
  (List.range n).foldl (fun s _ => microStep updateEvery rank s) ⟨0, 0, 0⟩

/-- Total token count of a batch. -/
def totalTokens (b : List PairSample) : Nat := (b.map tokenCount).sum

/-- Budget discipline of a batch: its total fits the budget, or it is a
singleton whose sole entry alone exceeds the budget. -/
def goodBatch (budget : Nat) (b : List PairSample) : Prop :=
  totalTokens b ≤ budget ∨ ∃ e, b = [e] ∧ budget < tokenCount e

/-- Loop invariant of the batch-building loop: the current object address is
valid, `num_tokens` equals the total of the current object, every object
obeys the budget discipline, and every appended reference is valid. -/
structure BatchInv (budget : Nat) (s : BatchState) : Prop where
  curLt : s.cur < s.objs.length
  numEq : s.num = totalTokens (s.objs.getD s.cur [])
  good : ∀ b ∈ s.objs, goodBatch budget b
  refsLt : ∀ r ∈ s.refs, r < s.objs.length

/-- An entry is reachable from the emitted references: some appended
reference points at an object containing it. -/
def holdsEntry (e : PairSample) (s : BatchState) : Prop :=
  ∃ r, r ∈ s.refs ∧ e ∈ s.objs.getD r []

/-- The collation contract of C7 for one batch: `N` rows in each id matrix,
each row the right-padding of the corresponding source/target to the batch
maximum, the source mask marking exactly the non-sentinel positions, a
square causal matrix of the maximum target length that is true exactly at
`j ≤ i`, and the sentinel `-1` occurring in no valid sequence. -/
def CollateOk (samples : List PairSample) : Prop :=
  (collate_fn samples).1.length = samples.length ∧
  (collate_fn samples).2.1.length = samples.length ∧
  (∀ i, i < samples.length →
    (collate_fn samples).1.getD i [] =
      padTo (maxLen (samples.map Prod.fst)) (samples.getD i ([], [])).1 ∧
    (collate_fn samples).2.1.getD i [] =
      padTo (maxLen (samples.map Prod.snd)) (samples.getD i ([], [])).2) ∧
  (∀ i, i < samples.length →
    (collate_fn samples).2.2.1.getD i [] =
      ((collate_fn samples).1.getD i []).map (fun x => x != -1)) ∧
  (collate_fn samples).2.2.2.length = maxLen (samples.map Prod.snd) ∧
  (∀ i j, i < maxLen (samples.map Prod.snd) → j < maxLen (samples.map Prod.snd) →
    ((collate_fn samples).2.2.2.getD i []).getD j false = decide (j ≤ i)) ∧
  (∀ p ∈ samples, (-1 : Int) ∉ p.1 ∧ (-1 : Int) ∉ p.2)

theorem perm_insertLe (le : α → α → Bool) (x : α) (l : List α) :
    (insertLe le x l).Perm (x :: l) := by
  induction l with
  | nil => simp [insertLe]
  | cons y ys ih =>
    simp only [insertLe]
    by_cases h : le x y
    · simp [h]
    · simp only [h, if_neg]
      exact ((ih.cons y).trans (List.Perm.swap x y ys)).trans (List.Perm.refl _)

theorem perm_isort (le : α → α → Bool) (l : List α) : (isort le l).Perm l := by
  induction l with
  | nil => simp [isort]
  | cons x xs ih =>
    exact (perm_insertLe le x (isort le xs)).trans (ih.cons x)

theorem mem_insertLe {le : α → α → Bool} {x a : α} {l : List α}
    (h : a ∈ insertLe le x l) : a = x ∨ a ∈ l := by
  have := (perm_insertLe le x l).mem_iff.mp h
  simpa using this

theorem pairwise_insertLe {le : α → α → Bool}
    (htr : ∀ a b c, le a b = true → le b c = true → le a c = true)
    (htot : ∀ a b, le a b = true ∨ le b a = true)
    {x : α} {l : List α} (hl : l.Pairwise (fun a b => le a b = true)) :
    (insertLe le x l).Pairwise (fun a b => le a b = true) := by
  induction hl with
  | nil => simp [insertLe]
  | @cons y ys hy hys ih =>
    simp only [insertLe]
    by_cases h : le x y
    · simp only [h, if_pos]
      refine List.Pairwise.cons ?_ (List.Pairwise.cons hy hys)
      intro b hb
      rcases List.mem_cons.mp hb with rfl | hb
      · exact h
      · exact htr x y b h (hy b hb)
    · simp only [h, if_neg]
      have hyx : le y x = true := by
        rcases htot x y with h1 | h1
        · exact absurd h1 h
        · exact h1
      refine List.Pairwise.cons ?_ ih
      intro b hb
      rcases mem_insertLe hb with rfl | hb
      · exact hyx
      · exact hy b hb

theorem pairwise_isort {le : α → α → Bool}
    (htr : ∀ a b c, le a b = true → le b c = true → le a c = true)
    (htot : ∀ a b, le a b = true ∨ le b a = true) (l : List α) :
    (isort le l).Pairwise (fun a b => le a b = true) := by
  induction l with
  | nil => simp [isort]
  | cons x xs ih => exact pairwise_insertLe htr htot ih

/-- C10: `split_ds` leaves its input unchanged — in the state-passing
rendering, the caller's dataset list after the call is exactly the list
passed in, and the returned shard is `split_ds` of that unchanged list. -/
theorem split_ds_input_unchanged (dataset : List PairSample) (world_size rank : Nat) :
    (split_ds_run dataset world_size rank).2 = dataset ∧
    (split_ds_run dataset world_size rank).1 = split_ds dataset world_size rank :=
  ⟨rfl, rfl⟩

/-- C3: refuted on the code — `run` initializes `train_rml` to the number 0,
not `None`, so the `is None` branch of the update is dead: after a single
micro-batch with raw loss 1 the smoothed loss is 0.98·0 + 0.02·1 = 1/50,
not the raw loss 1 the claim requires for the very first micro-batch. -/
theorem train_rml_first_batch_bug :
    rmlRun [1] = some (1 / 50) ∧ (1 / 50 : ℚ) ≠ 1 := by
  constructor
  · show rmlStep trainRmlInit 1 = some (1 / 50)
    simp only [rmlStep, trainRmlInit]
    norm_num
  · norm_num

/-- C8: refuted on the code — the `rank == 0 and updates % 50 == 0` check
sits in the micro-batch loop, not inside the update branch.  With
`update_every = 2` on rank 0, after 1 micro-batch the loop has completed 0
optimizer updates yet has already entered the metric-reduction/evaluation
block once, and after 101 micro-batches (50 completed updates) it has
entered the block 3 times (micro-batches 1, 100 and 101) instead of once
per 50-update interval. -/
theorem eval_trigger_bug :
    runLoop 2 0 1 = ⟨1, 0, 1⟩ ∧ runLoop 2 0 101 = ⟨101, 50, 3⟩ := by
  constructor
  · decide
  · decide

/-- C1: refuted on the code — the `if batch: batches.append(batch)` sits
inside the index loop, so the running batch object is appended on every
iteration.  On the shard `[([0],[]), ([0],[1])]` (token counts 1 and 2, all
distinct, so every within-group shuffle is the identity, and both emitted
batches are equal, so the final batch shuffle is also immaterial) with
budget 10, `get_batches` emits the same two-entry batch twice: entry
`([0],[])` occurs in two emitted batches, not exactly one. -/
theorem get_batches_duplication_bug :
    get_batches [([0], []), ([0], [1])] 10 =
      [[([0], []), ([0], [1])], [([0], []), ([0], [1])]] ∧
    List.count (([0], []) : PairSample)
      (get_batches [([0], []), ([0], [1])] 10).flatten = 2 := by
  constructor
  · decide
  · decide

theorem strideAux_nil (w k : Nat) : strideAux w k ([] : List α) = [] := by
  cases k <;> rfl

theorem strideAux_eq_drop (w : Nat) : ∀ (k : Nat) (l : List α),
    strideAux w k l = strideAux w 0 (l.drop k) := by
  intro k l
  induction l generalizing k with
  | nil => simp [strideAux_nil]
  | cons x xs ih =>
    cases k with
    | zero => rfl
    | succ k => simpa [strideAux] using ih k

theorem strideAux_zero_decomp (w : Nat) (hw : 1 ≤ w) (m : List α) :
    strideAux w 0 m = m.take 1 ++ strideAux w 0 (m.drop w) := by
  cases m with
  | nil => simp [strideAux_nil]
  | cons x xs =>
    obtain ⟨v, rfl⟩ : ∃ v, w = v + 1 := ⟨w - 1, by omega⟩
    simp [strideAux, strideAux_eq_drop]

theorem strideAux_getElem (w : Nat) (hw : 1 ≤ w) :
    ∀ (l : List α) (i k : Nat), (strideAux w k l)[i]? = l[k + i * w]? := by
  obtain ⟨v, rfl⟩ : ∃ v, w = v + 1 := ⟨w - 1, by omega⟩
  intro l
  induction l with
  | nil => simp [strideAux_nil]
  | cons x xs ih =>
    intro i k
    cases k with
    | zero =>
      cases i with
      | zero => simp [strideAux]
      | succ i =>
        have h1 : strideAux (v + 1) 0 (x :: xs) = x :: strideAux (v + 1) v xs := rfl
        have harith : 0 + (i + 1) * (v + 1) = (v + i * (v + 1)) + 1 := by ring
        rw [h1, List.getElem?_cons_succ, harith, List.getElem?_cons_succ, ih i v]
    | succ k =>
      have h1 : strideAux (v + 1) (k + 1) (x :: xs) = strideAux (v + 1) k xs := rfl
      have harith : k + 1 + i * (v + 1) = (k + i * (v + 1)) + 1 := by omega
      rw [h1, harith, List.getElem?_cons_succ, ih i k]

theorem strideAux_one (l : List α) : strideAux 1 0 l = l := by
  induction l with
  | nil => rfl
  | cons x xs ih => simpa [strideAux] using ih

theorem flatMap_congr_on {l : List β} {f g : β → List α} (h : ∀ a ∈ l, f a = g a) :
    l.flatMap f = l.flatMap g := by
  induction l with
  | nil => simp
  | cons a as ih =>
    simp only [List.flatMap_cons]
    rw [h a (List.mem_cons_self a as), ih (fun b hb => h b (List.mem_cons_of_mem a hb))]

theorem flatMap_append_perm (xs : List β) (u v : β → List α) :
    (xs.flatMap (fun r => u r ++ v r)).Perm (xs.flatMap u ++ xs.flatMap v) := by
  induction xs with
  | nil => simp
  | cons a as ih =>
    simp only [List.flatMap_cons]
    rw [List.append_assoc]
    refine List.Perm.trans ((ih.append_left (v a)).append_left (u a)) ?_
    have h2 : v a ++ (as.flatMap u ++ as.flatMap v) =
        (v a ++ as.flatMap u) ++ as.flatMap v := by rw [List.append_assoc]
    rw [h2]
    refine List.Perm.trans
      (((@List.perm_append_comm _ (v a) (as.flatMap u)).append_right
        (as.flatMap v)).append_left (u a)) ?_
    simp only [List.append_assoc]
    exact List.Perm.refl _

theorem take_one_drop (l : List α) (n : Nat) : (l.drop n).take 1 = l[n]?.toList := by
  rcases hd : l.drop n with _ | ⟨y, ys⟩
  · have hlen : l.length ≤ n := List.drop_eq_nil_iff.mp hd
    simp [List.getElem?_eq_none hlen]
  · have hy : l[n]? = some y := by
      have h0 : (l.drop n)[0]? = some y := by rw [hd]; simp
      rw [List.getElem?_drop] at h0
      simpa using h0
    simp [hy]

theorem flatMap_take_one (l : List α) (w : Nat) :
    (List.range w).flatMap (fun r => (l.drop r).take 1) = l.take w := by
  induction w with
  | zero => simp
  | succ w ih =>
    rw [List.range_succ, List.flatMap_append, ih]
    simp [take_one_drop, List.take_succ]

theorem stride_union_perm (w : Nat) (hw : 1 ≤ w) :
    ∀ (l : List α), ((List.range w).flatMap (fun r => strideAux w r l)).Perm l := by
  have main : ∀ (n : Nat) (l : List α), l.length ≤ n →
      ((List.range w).flatMap (fun r => strideAux w r l)).Perm l := by
    intro n
    induction n with
    | zero =>
      intro l hl
      have hnil : l = [] := List.length_eq_zero.mp (Nat.le_zero.mp hl)
      subst hnil
      have hz : ∀ r, strideAux w r ([] : List α) = [] := fun r => strideAux_nil w r
      simp [hz]
    | succ n ih =>
      intro l hl
      cases l with
      | nil =>
        have hz : ∀ r, strideAux w r ([] : List α) = [] := fun r => strideAux_nil w r
        simp [hz]
      | cons x xs =>
        have hdec : ∀ r, strideAux w r (x :: xs) =
            ((x :: xs).drop r).take 1 ++ strideAux w r ((x :: xs).drop w) := by
          intro r
          rw [strideAux_eq_drop w r, strideAux_zero_decomp w hw,
            strideAux_eq_drop w r ((x :: xs).drop w), List.drop_drop, List.drop_drop,
            Nat.add_comm r w]
        rw [flatMap_congr_on (fun r _ => hdec r)]
        refine List.Perm.trans (flatMap_append_perm _ _ _) ?_
        rw [flatMap_take_one]
        refine List.Perm.trans (List.Perm.append_left _ (ih ((x :: xs).drop w) ?_)) ?_
        · have hlen : (x :: xs).length = xs.length + 1 := rfl
          rw [List.length_drop]
          simp only [hlen] at hl ⊢
          omega
        · rw [List.take_append_drop w (x :: xs)]
  intro l
  exact main l.length l (Nat.le_refl _)

/-- C4: `split_ds` returns exactly the entries at positions congruent to
`rank` modulo `world_size` of the dataset sorted ascending by combined token
count (the `i`-th shard element is the sorted list's element at position
`rank + i·world_size`); the shards over all ranks together are a permutation
of the dataset, so every entry is recovered exactly once; and
`world_size = 1` yields the whole dataset reordered by length. -/
theorem split_ds_spec (dataset : List PairSample) (world_size rank : Nat)
    (hw : 1 ≤ world_size) (hr : rank < world_size) :
    (∀ i : Nat, (split_ds dataset world_size rank)[i]? =
      (sortPairs dataset)[rank + i * world_size]?) ∧
    ((List.range world_size).flatMap
      (fun q => split_ds dataset world_size q)).Perm dataset ∧
    split_ds dataset 1 0 = sortPairs dataset := by
  refine ⟨?_, ?_, ?_⟩
  · intro i
    exact strideAux_getElem world_size hw (sortPairs dataset) i rank
  · exact (stride_union_perm world_size hw (sortPairs dataset)).trans
      (perm_isort _ dataset)
  · exact strideAux_one (sortPairs dataset)

/-- Witness for C4 at the spec's own end-to-end scenario: a 5-entry dataset
split with `world_size = 2`, `rank = 1`. -/
theorem split_ds_spec_witness :
    (∀ i : Nat, (split_ds [([0], []), ([0, 0], []), ([], []), ([0, 0, 0], []), ([0], [0])] 2 1)[i]? =
      (sortPairs [([0], []), ([0, 0], []), ([], []), ([0, 0, 0], []), ([0], [0])])[1 + i * 2]?) ∧
    ((List.range 2).flatMap
      (fun q => split_ds [([0], []), ([0, 0], []), ([], []), ([0, 0, 0], []), ([0], [0])] 2 q)).Perm
      [([0], []), ([0, 0], []), ([], []), ([0, 0, 0], []), ([0], [0])] ∧
    split_ds [([0], []), ([0, 0], []), ([], []), ([0, 0, 0], []), ([0], [0])] 1 0 =
      sortPairs [([0], []), ([0, 0], []), ([], []), ([0, 0, 0], []), ([0], [0])] :=
  split_ds_spec [([0], []), ([0, 0], []), ([], []), ([0, 0, 0], []), ([0], [0])] 2 1
    (by decide) (by decide)

theorem tokenCount_opt (o : Option PairSample) :
    (Option.map tokenCount o).getD 0 = tokenCount (o.getD ([], [])) := by
  cases o <;> simp [tokenCount]

theorem tokenCounts_getD (ds : List PairSample) (idx : Nat) :
    (ds.map tokenCount).getD idx 0 = tokenCount (ds.getD idx ([], [])) := by
  rcases Nat.lt_or_ge idx ds.length with h | h
  · simp [List.getD_eq_getElem?_getD, List.getElem?_map, List.getElem?_eq_getElem h]
  · have h1 : ds[idx]? = none := List.getElem?_eq_none h
    have h2 : (ds.map tokenCount)[idx]? = none := List.getElem?_eq_none (by simpa using h)
    simp [List.getD_eq_getElem?_getD, h1, h2, tokenCount]

theorem totalTokens_append (a b : List PairSample) :
    totalTokens (a ++ b) = totalTokens a + totalTokens b := by
  simp [totalTokens]

theorem batchStep_overflow {tc : List Nat} {budget : Nat} {s : BatchState} {idx : Nat}
    (ds : List PairSample) (hov : budget < s.num + tc.getD idx 0) :
    batchStep ds tc budget s idx =
      ⟨s.objs ++ [[ds.getD idx ([], [])]], (s.refs ++ [s.cur]) ++ [s.objs.length],
        s.objs.length, tc.getD idx 0⟩ := by
  unfold batchStep
  simp only [if_pos hov]
  have hget : (s.objs ++ [[ds.getD idx ([], [])]]).getD s.objs.length [] =
      [ds.getD idx ([], [])] := by
    simp [List.getD_eq_getElem?_getD, List.getElem?_concat_length]
  simp [hget]

theorem batchStep_fits {tc : List Nat} {budget : Nat} {s : BatchState} {idx : Nat}
    (ds : List PairSample) (hov : ¬ budget < s.num + tc.getD idx 0)
    (hcur : s.cur < s.objs.length) :
    batchStep ds tc budget s idx =
      ⟨s.objs.set s.cur (s.objs.getD s.cur [] ++ [ds.getD idx ([], [])]),
        s.refs ++ [s.cur], s.cur, s.num + tc.getD idx 0⟩ := by
  unfold batchStep
  simp only [if_neg hov]
  simp [List.getElem?_set_self hcur]

theorem batchStep_inv {budget : Nat} {s : BatchState} (ds : List PairSample) (idx : Nat)
    (h : BatchInv budget s) :
    BatchInv budget (batchStep ds (ds.map tokenCount) budget s idx) := by
  have hsz := tokenCounts_getD ds idx
  by_cases hov : budget < s.num + (ds.map tokenCount).getD idx 0
  · rw [batchStep_overflow ds hov]
    refine ⟨?_, ?_, ?_, ?_⟩
    · simp
    · have hget : (s.objs ++ [[ds.getD idx ([], [])]]).getD s.objs.length [] =
          [ds.getD idx ([], [])] := by
        simp [List.getD_eq_getElem?_getD, List.getElem?_concat_length]
      simp [hget, totalTokens, hsz, tokenCount_opt]
    · intro b hb
      rcases List.mem_append.mp hb with hb | hb
      · exact h.good b hb
      · have hbe : b = [ds.getD idx ([], [])] := by simpa using hb
        subst hbe
        rcases le_or_lt (tokenCount (ds.getD idx ([], []))) budget with hle | hlt
        · exact Or.inl (by simpa [totalTokens] using hle)
        · exact Or.inr ⟨ds.getD idx ([], []), rfl, hlt⟩
    · intro r hr
      have hclen := h.curLt
      have hlen : (s.objs ++ [[ds.getD idx ([], [])]]).length = s.objs.length + 1 := by simp
      rw [hlen]
      rcases List.mem_append.mp hr with hr | hr
      · rcases List.mem_append.mp hr with hr | hr
        · exact Nat.lt_succ_of_lt (h.refsLt r hr)
        · have : r = s.cur := by simpa using hr
          subst this
          exact Nat.lt_succ_of_lt hclen
      · have : r = s.objs.length := by simpa using hr
        subst this
        exact Nat.lt_succ_self _
  · rw [batchStep_fits ds hov h.curLt]
    have hget : (s.objs.set s.cur (s.objs.getD s.cur [] ++ [ds.getD idx ([], [])])).getD
        s.cur [] = s.objs.getD s.cur [] ++ [ds.getD idx ([], [])] := by
      simp [List.getD_eq_getElem?_getD, List.getElem?_set_self h.curLt]
    refine ⟨?_, ?_, ?_, ?_⟩
    · simpa using h.curLt
    · rw [hget, totalTokens_append]
      simp [totalTokens, h.numEq, hsz, tokenCount_opt]
    · intro b hb
      rcases List.mem_or_eq_of_mem_set hb with hb | hb
      · exact h.good b hb
      · subst hb
        refine Or.inl ?_
        rw [totalTokens_append]
        have : s.num + (ds.map tokenCount).getD idx 0 ≤ budget := Nat.le_of_not_lt hov
        simpa [totalTokens, h.numEq, hsz, tokenCount_opt] using this
    · intro r hr
      rcases List.mem_append.mp hr with hr | hr
      · simpa using h.refsLt r hr
      · have : r = s.cur := by simpa using hr
        subst this
        simpa using h.curLt

theorem foldl_batchStep_inv {budget : Nat} (ds : List PairSample) :
    ∀ (indices : List Nat) (s : BatchState), BatchInv budget s →
      BatchInv budget (indices.foldl (batchStep ds (ds.map tokenCount) budget) s) := by
  intro indices
  induction indices with
  | nil => intro s hs; exact hs
  | cons i is ih => intro s hs; exact ih _ (batchStep_inv ds i hs)

theorem initBatchState_inv (budget : Nat) : BatchInv budget initBatchState := by
  refine ⟨?_, ?_, ?_, ?_⟩
  · simp [initBatchState]
  · simp [initBatchState, totalTokens]
  · intro b hb
    have : b = [] := by simpa [initBatchState] using hb
    subst this
    exact Or.inl (by simp [totalTokens])
  · intro r hr
    simp [initBatchState] at hr

theorem batchStep_keeps {budget : Nat} {s : BatchState} {e : PairSample}
    (ds : List PairSample) (idx : Nat) (h : BatchInv budget s) (he : holdsEntry e s) :
    holdsEntry e (batchStep ds (ds.map tokenCount) budget s idx) := by
  obtain ⟨r, hr, hmem⟩ := he
  have hrlt := h.refsLt r hr
  by_cases hov : budget < s.num + (ds.map tokenCount).getD idx 0
  · rw [batchStep_overflow ds hov]
    refine ⟨r, by simp [hr], ?_⟩
    have : (s.objs ++ [[ds.getD idx ([], [])]]).getD r [] = s.objs.getD r [] := by
      simp [List.getD_eq_getElem?_getD, List.getElem?_append_left hrlt]
    rw [this]
    exact hmem
  · rw [batchStep_fits ds hov h.curLt]
    refine ⟨r, by simp [hr], ?_⟩
    by_cases hrc : r = s.cur
    · rw [hrc] at hmem hrlt ⊢
      have : (s.objs.set s.cur (s.objs.getD s.cur [] ++ [ds.getD idx ([], [])])).getD s.cur [] =
          s.objs.getD s.cur [] ++ [ds.getD idx ([], [])] := by
        simp [List.getD_eq_getElem?_getD, List.getElem?_set_self hrlt]
      rw [this]
      exact List.mem_append_left _ hmem
    · have : (s.objs.set s.cur (s.objs.getD s.cur [] ++ [ds.getD idx ([], [])])).getD r [] =
          s.objs.getD r [] := by
        simp [List.getD_eq_getElem?_getD, List.getElem?_set_ne (fun hc => hrc hc.symm)]
      rw [this]
      exact hmem

theorem batchStep_adds {budget : Nat} {s : BatchState}
    (ds : List PairSample) (idx : Nat) (h : BatchInv budget s) :
    holdsEntry (ds.getD idx ([], [])) (batchStep ds (ds.map tokenCount) budget s idx) := by
  by_cases hov : budget < s.num + (ds.map tokenCount).getD idx 0
  · rw [batchStep_overflow ds hov]
    refine ⟨s.objs.length, by simp, ?_⟩
    have : (s.objs ++ [[ds.getD idx ([], [])]]).getD s.objs.length [] =
        [ds.getD idx ([], [])] := by
      simp [List.getD_eq_getElem?_getD, List.getElem?_concat_length]
    rw [this]
    simp
  · rw [batchStep_fits ds hov h.curLt]
    refine ⟨s.cur, by simp, ?_⟩
    have : (s.objs.set s.cur (s.objs.getD s.cur [] ++ [ds.getD idx ([], [])])).getD s.cur [] =
        s.objs.getD s.cur [] ++ [ds.getD idx ([], [])] := by
      simp [List.getD_eq_getElem?_getD, List.getElem?_set_self h.curLt]
    rw [this]
    simp

theorem foldl_batchStep_keeps {budget : Nat} {e : PairSample} (ds : List PairSample) :
    ∀ (indices : List Nat) (s : BatchState), BatchInv budget s → holdsEntry e s →
      holdsEntry e (indices.foldl (batchStep ds (ds.map tokenCount) budget) s) := by
  intro indices
  induction indices with
  | nil => intro s _ he; exact he
  | cons i is ih =>
    intro s hs he
    exact ih _ (batchStep_inv ds i hs) (batchStep_keeps ds i hs he)

theorem foldl_batchStep_adds {budget : Nat} (ds : List PairSample) :
    ∀ (indices : List Nat) (s : BatchState), BatchInv budget s → ∀ idx ∈ indices,
      holdsEntry (ds.getD idx ([], []))
        (indices.foldl (batchStep ds (ds.map tokenCount) budget) s) := by
  intro indices
  induction indices with
  | nil => intro s _ idx hidx; exact absurd hidx (List.not_mem_nil idx)
  | cons i is ih =>
    intro s hs idx hidx
    rcases List.mem_cons.mp hidx with rfl | hidx
    · exact foldl_batchStep_keeps ds is _ (batchStep_inv ds idx hs)
        (batchStep_adds ds idx hs)
    · exact ih _ (batchStep_inv ds i hs) idx hidx

theorem runBatches_good (dataset : List PairSample) (budget : Nat) (indices : List Nat) :
    ∀ b ∈ runBatches dataset budget indices, goodBatch budget b := by
  intro b hb
  unfold runBatches at hb
  obtain ⟨r, hr, rfl⟩ := List.mem_map.mp hb
  set fin := indices.foldl (batchStep dataset (dataset.map tokenCount) budget)
    initBatchState with hfin
  have hinv : BatchInv budget fin :=
    foldl_batchStep_inv dataset indices initBatchState (initBatchState_inv budget)
  have hrlt : r < fin.objs.length := hinv.refsLt r hr
  have : fin.objs.getD r [] ∈ fin.objs := by
    rw [List.getD_eq_getElem?_getD, List.getElem?_eq_getElem hrlt]
    exact List.getElem_mem hrlt
  exact hinv.good _ this

theorem runBatches_covers (dataset : List PairSample) (budget : Nat) (indices : List Nat) :
    ∀ idx ∈ indices, dataset.getD idx ([], []) ∈ (runBatches dataset budget indices).flatten := by
  intro idx hidx
  obtain ⟨r, hr, hmem⟩ :=
    foldl_batchStep_adds dataset indices initBatchState (initBatchState_inv budget) idx hidx
  refine List.mem_flatten.mpr ⟨_, ?_, hmem⟩
  exact List.mem_map_of_mem _ hr

/-- C2: for every shard, budget and index order (covering every outcome of
the random shuffles), every batch emitted by the `get_batches` loop either
has total token count within the budget or is a singleton whose sole entry
alone exceeds the budget — so an oversized entry is placed alone in its own
batch — and no processed index is dropped: its entry occurs in some emitted
batch.  The same budget discipline holds for the deterministic
`get_batches` instance. -/
theorem get_batches_budget (dataset : List PairSample) (budget : Nat) (indices : List Nat) :
    (∀ b ∈ runBatches dataset budget indices,
      totalTokens b ≤ budget ∨ ∃ e, b = [e] ∧ budget < tokenCount e) ∧
    (∀ idx ∈ indices, dataset.getD idx ([], []) ∈ (runBatches dataset budget indices).flatten) ∧
    (∀ b ∈ get_batches dataset budget,
      totalTokens b ≤ budget ∨ ∃ e, b = [e] ∧ budget < tokenCount e) := by
  refine ⟨runBatches_good dataset budget indices, runBatches_covers dataset budget indices, ?_⟩
  intro b hb
  exact runBatches_good dataset budget (sortedIndices (dataset.map tokenCount)) b hb

/-- Witness for C2 on a concrete shard: the oversized entry (token count 5,
budget 4) is kept, alone, in an emitted batch, and a concrete emitted batch
satisfies the budget discipline. -/
theorem get_batches_budget_witness :
    ((([0, 0, 0], [0, 0]) : PairSample) ∈
      (runBatches [([0, 0, 0], [0, 0]), ([0], [])] 4 [1, 0]).flatten) ∧
    (totalTokens [(([0], []) : PairSample)] ≤ 4 ∨
      ∃ e, [(([0], []) : PairSample)] = [e] ∧ 4 < tokenCount e) :=
  ⟨(get_batches_budget [([0, 0, 0], [0, 0]), ([0], [])] 4 [1, 0]).2.1 0 (by decide),
   (get_batches_budget [([0, 0, 0], [0, 0]), ([0], [])] 4 [1, 0]).1 [([0], [])] (by decide)⟩

theorem getD_map_lt (f : α → β) (l : List α) (i : Nat) (d : α) (d2 : β)
    (h : i < l.length) : (l.map f).getD i d2 = f (l.getD i d) := by
  rw [List.getD_eq_getElem?_getD, List.getD_eq_getElem?_getD, List.getElem?_map,
    List.getElem?_eq_getElem h]
  simp

theorem getD_range {n i : Nat} (h : i < n) : (List.range n).getD i 0 = i := by
  rw [List.getD_eq_getElem?_getD, List.getElem?_eq_getElem (by simpa using h)]
  simp

/-- C7: for every non-empty batch whose id sequences hold only valid
(non-negative) ids, collation satisfies the full contract `CollateOk`:
padding on the right to the per-side batch maximum with the sentinel `-1`
(distinct from every valid id), `N` rows per id matrix, the source mask true
exactly off the sentinel, and the shared causal mask lower-triangular of the
maximum target length. -/
theorem collate_fn_spec (samples : List PairSample) (hne : samples ≠ [])
    (hval : ∀ p ∈ samples, (∀ x ∈ p.1, 0 ≤ x) ∧ (∀ x ∈ p.2, 0 ≤ x)) :
    CollateOk samples := by
  refine ⟨?_, ?_, ?_, ?_, ?_, ?_, ?_⟩
  · simp [collate_fn]
  · simp [collate_fn]
  · intro i hi
    constructor
    · show ((samples.map Prod.fst).map (padTo (maxLen (samples.map Prod.fst)))).getD i [] = _
      rw [getD_map_lt _ _ i [] [] (by simpa using hi),
        getD_map_lt Prod.fst samples i ([], []) [] hi]
    · show ((samples.map Prod.snd).map (padTo (maxLen (samples.map Prod.snd)))).getD i [] = _
      rw [getD_map_lt _ _ i [] [] (by simpa using hi),
        getD_map_lt Prod.snd samples i ([], []) [] hi]
  · intro i hi
    show (((samples.map Prod.fst).map (padTo (maxLen (samples.map Prod.fst)))).map
        (fun row => row.map (fun x => x != -1))).getD i [] = _
    rw [getD_map_lt _ _ i [] [] (by simpa using hi)]
    rfl
  · simp [collate_fn]
  · intro i j hi hj
    show (((List.range (maxLen (samples.map Prod.snd))).map
        (fun a => (List.range (maxLen (samples.map Prod.snd))).map
          (fun b => decide (b ≤ a)))).getD i []).getD j false = _
    rw [getD_map_lt _ _ i 0 [] (by simpa using hi),
      getD_map_lt _ _ j 0 false (by simpa using hj), getD_range hi, getD_range hj]
  · intro p hp
    constructor
    · intro hmem
      have h0 := (hval p hp).1 _ hmem
      norm_num at h0
    · intro hmem
      have h0 := (hval p hp).2 _ hmem
      norm_num at h0

/-- Witness for C7 on a concrete two-pair batch with valid ids. -/
theorem collate_fn_spec_witness :
    [(([0], [1]) : PairSample), ([2, 3], [4])] ≠ [] ∧
    CollateOk [([0], [1]), ([2, 3], [4])] :=
  ⟨by decide, collate_fn_spec [([0], [1]), ([2, 3], [4])] (by decide) (by decide)⟩

/-- C9: for every vocabulary loaded by `read_vocab`, looking up a token
absent from its entries never fails and yields the unknown id 2, and
vectorizing a line all of whose tokens are absent succeeds, producing the
unknown id at every position. -/
theorem vocab_lookup_never_fails (content tok line : Str)
    (habs : ∀ p ∈ read_vocab content, p.1 ≠ tok)
    (hline : ∀ w ∈ pySplit line, ∀ p ∈ read_vocab content, p.1 ≠ w) :
    vocabGet (read_vocab content) tok = 2 ∧
    vectorize line (read_vocab content) false =
      List.replicate (pySplit line).length 2 := by
  have hget : ∀ t : Str, (∀ p ∈ read_vocab content, p.1 ≠ t) →
      vocabGet (read_vocab content) t = 2 := by
    intro t ht
    unfold vocabGet
    have hfil : (read_vocab content).filter (fun p => p.1 = t) = [] := by
      rw [List.filter_eq_nil_iff]
      intro p hp
      simpa using ht p hp
    rw [hfil]
    rfl
  refine ⟨hget tok habs, ?_⟩
  show (pySplit line).map (fun w => vocabGet (read_vocab content) w) = _
  have hlen : ((pySplit line).map (fun w => vocabGet (read_vocab content) w)).length =
      (pySplit line).length := List.length_map _ _
  rw [← hlen]
  refine List.eq_replicate_of_mem ?_
  intro b hb
  obtain ⟨w, hw, rfl⟩ := List.mem_map.mp hb
  exact hget w (hline w hw)

/-- Witness for C9: a concrete loaded vocabulary and a line of two
out-of-vocabulary tokens. -/
theorem vocab_lookup_never_fails_witness :
    vocabGet (read_vocab "<SOS>\n<EOS>\n<UNK>\nhello".toList) "zz".toList = 2 ∧
    vectorize "zz qq".toList (read_vocab "<SOS>\n<EOS>\n<UNK>\nhello".toList) false =
      List.replicate (pySplit "zz qq".toList).length 2 :=
  vocab_lookup_never_fails "<SOS>\n<EOS>\n<UNK>\nhello".toList "zz".toList "zz qq".toList
    (by decide) (by decide)

theorem assignIds_mem_iff (ws : List Str) : ∀ (n : Nat) (p : Str × Nat),
    p ∈ assignIds n ws ↔ n ≤ p.2 ∧ ws[p.2 - n]? = some p.1 := by
  induction ws with
  | nil => intro n p; simp [assignIds]
  | cons t ts ih =>
    intro n p
    obtain ⟨p1, p2⟩ := p
    simp only [assignIds, List.mem_cons, ih (n + 1)]
    constructor
    · rintro (hp | ⟨h1, h2⟩)
      · obtain ⟨rfl, rfl⟩ : p1 = t ∧ p2 = n := by
          constructor <;> [exact congrArg Prod.fst hp; exact congrArg Prod.snd hp]
        simp
      · refine ⟨by omega, ?_⟩
        obtain ⟨d, rfl⟩ : ∃ d, p2 = n + 1 + d := ⟨p2 - (n + 1), by omega⟩
        have e1 : n + 1 + d - n = d + 1 := by omega
        have e2 : n + 1 + d - (n + 1) = d := by omega
        rw [e1, List.getElem?_cons_succ]
        rw [e2] at h2
        exact h2
    · rintro ⟨h1, h2⟩
      rcases Nat.eq_or_lt_of_le h1 with heq | hlt
      · left
        have hz : p2 - n = 0 := by omega
        rw [hz] at h2
        have ht : t = p1 := by simpa using h2
        rw [ht, heq]
      · right
        refine ⟨by omega, ?_⟩
        obtain ⟨d, rfl⟩ : ∃ d, p2 = n + 1 + d := ⟨p2 - (n + 1), by omega⟩
        have e1 : n + 1 + d - n = d + 1 := by omega
        have e2 : n + 1 + d - (n + 1) = d := by omega
        rw [e1, List.getElem?_cons_succ] at h2
        rw [e2]
        exact h2

theorem ivocabFind_assignIds (ws : List Str) : ∀ (n i : Nat),
    ivocabFind (assignIds n ws) i = if n ≤ i then ws[i - n]? else none := by
  induction ws with
  | nil =>
    intro n i
    simp only [assignIds, ivocabFind, List.filter_nil, List.getLast?_nil, Option.map_none']
    split <;> simp
  | cons t ts ih =>
    intro n i
    show ivocabFind ((t, n) :: assignIds (n + 1) ts) i = _
    by_cases hni : n = i
    · subst hni
      have hrest : (assignIds (n + 1) ts).filter (fun p => p.2 = n) = [] := by
        rw [List.filter_eq_nil_iff]
        intro p hp
        have hge := ((assignIds_mem_iff ts (n + 1) p).mp hp).1
        simp only [decide_eq_true_eq]
        omega
      unfold ivocabFind
      rw [List.filter_cons]
      simp [hrest]
    · unfold ivocabFind
      rw [List.filter_cons]
      rw [if_neg (by simpa using hni)]
      have hih := ih (n + 1) i
      unfold ivocabFind at hih
      rw [hih]
      rcases Nat.lt_or_ge i (n + 1) with hlt | hge
      · have h1 : ¬ (n + 1 ≤ i) := by omega
        have h2 : ¬ (n ≤ i) := by omega
        rw [if_neg h1, if_neg h2]
      · have h1 : n + 1 ≤ i := hge
        have h2 : n ≤ i := by omega
        rw [if_pos h1, if_pos h2]
        obtain ⟨d, rfl⟩ : ∃ d, i = n + 1 + d := ⟨i - (n + 1), by omega⟩
        have e1 : n + 1 + d - n = d + 1 := by omega
        have e2 : n + 1 + d - (n + 1) = d := by omega
        rw [e1, e2, List.getElem?_cons_succ]

theorem vocabGet_mem (ws : List Str) (w : Str) (hw : w ∈ ws) :
    ws[vocabGet (assignIds 0 ws) w]? = some w := by
  obtain ⟨k, hk⟩ := List.mem_iff_getElem?.mp hw
  have hmem : ((w, k) : Str × Nat) ∈ assignIds 0 ws :=
    (assignIds_mem_iff ws 0 (w, k)).mpr (by simpa using hk)
  have hf : ((w, k) : Str × Nat) ∈ (assignIds 0 ws).filter (fun p => p.1 = w) :=
    List.mem_filter.mpr ⟨hmem, by simp⟩
  have hne : (assignIds 0 ws).filter (fun p => p.1 = w) ≠ [] := by
    intro h0
    rw [h0] at hf
    exact absurd hf (List.not_mem_nil _)
  obtain ⟨q, hq⟩ : ∃ q, ((assignIds 0 ws).filter (fun p => p.1 = w)).getLast? = some q := by
    rcases hgl : ((assignIds 0 ws).filter (fun p => p.1 = w)).getLast? with _ | q
    · exact absurd (List.getLast?_eq_none_iff.mp hgl) hne
    · exact ⟨q, hgl⟩
  have hqf := List.mem_filter.mp (List.mem_of_getLast?_eq_some hq)
  have hqa := (assignIds_mem_iff ws 0 q).mp hqf.1
  have hq1 : q.1 = w := by simpa using hqf.2
  unfold vocabGet
  rw [hq]
  simpa [hq1] using hqa.2

theorem vocabGet_not_mem (ws : List Str) (w : Str) (hw : w ∉ ws) :
    vocabGet (assignIds 0 ws) w = 2 := by
  unfold vocabGet
  have hfil : (assignIds 0 ws).filter (fun p => p.1 = w) = [] := by
    rw [List.filter_eq_nil_iff]
    intro p hp hpw
    have hpa := (assignIds_mem_iff ws 0 p).mp hp
    have : p.1 ∈ ws := List.getElem?_mem hpa.2
    rw [show p.1 = w from by simpa using hpw] at this
    exact hw this
  rw [hfil]
  rfl

theorem mapIv_all (iv : Nat → Option Str) (f : Str → Nat) (g : Str → Str) :
    ∀ (toks : List Str), (∀ x ∈ toks, iv (f x) = some (g x)) →
      mapIv iv (toks.map f) = some (toks.map g) := by
  intro toks
  induction toks with
  | nil => intro _; rfl
  | cons x xs ih =>
    intro h
    show mapIv iv (f x :: xs.map f) = _
    rw [show mapIv iv (f x :: xs.map f) =
        match iv (f x), mapIv iv (xs.map f) with
        | some s, some ss => some (s :: ss)
        | _, _ => none from rfl]
    rw [h x (List.mem_cons_self x xs), ih (fun y hy => h y (List.mem_cons_of_mem x hy))]
    rfl

theorem mapIv_append_single (iv : Nat → Option Str) :
    ∀ (a : List Nat) (e : Nat) (M : List Str) (se : Str),
      mapIv iv a = some M → iv e = some se → mapIv iv (a ++ [e]) = some (M ++ [se]) := by
  intro a
  induction a with
  | nil =>
    intro e M se ha he
    have hM : M = [] := by
      have : some ([] : List Str) = some M := ha
      simpa using this.symm
    subst hM
    show mapIv iv [e] = some [se]
    rw [show mapIv iv [e] =
        match iv e, mapIv iv ([] : List Nat) with
        | some s, some ss => some (s :: ss)
        | _, _ => none from rfl]
    rw [he]
    rfl
  | cons t ts ih =>
    intro e M se ha he
    rcases hiv : iv t with _ | s
    · rw [show mapIv iv (t :: ts) =
          match iv t, mapIv iv ts with
          | some s, some ss => some (s :: ss)
          | _, _ => none from rfl, hiv] at ha
      cases hts : mapIv iv ts <;> rw [hts] at ha <;> exact absurd ha (by simp)
    · rcases hts : mapIv iv ts with _ | Ms
      · rw [show mapIv iv (t :: ts) =
            match iv t, mapIv iv ts with
            | some s, some ss => some (s :: ss)
            | _, _ => none from rfl, hiv, hts] at ha
        exact absurd ha (by simp)
      · rw [show mapIv iv (t :: ts) =
            match iv t, mapIv iv ts with
            | some s, some ss => some (s :: ss)
            | _, _ => none from rfl, hiv, hts] at ha
        have hM : M = s :: Ms := by simpa using ha.symm
        subst hM
        show mapIv iv (t :: (ts ++ [e])) = _
        rw [show mapIv iv (t :: (ts ++ [e])) =
            match iv t, mapIv iv (ts ++ [e]) with
            | some s, some ss => some (s :: ss)
            | _, _ => none from rfl, hiv, ih e Ms se hts he]
        rfl

theorem takeWhile_all_append (p : Str → Bool) (A : List Str) (x : Str)
    (hA : ∀ a ∈ A, p a = true) (hx : p x = false) :
    (A ++ [x]).takeWhile p = A := by
  induction A with
  | nil => simp [List.takeWhile_cons, hx]
  | cons a as ih =>
    have ha := hA a (List.mem_cons_self a as)
    simp only [List.cons_append, List.takeWhile_cons, ha, if_true]
    rw [ih (fun b hb => hA b (List.mem_cons_of_mem a hb))]

theorem mapIv_cons_some (iv : Nat → Option Str) (t : Nat) (ts : List Nat) (s : Str)
    (S : List Str) (h1 : iv t = some s) (h2 : mapIv iv ts = some S) :
    mapIv iv (t :: ts) = some (s :: S) := by
  rw [show mapIv iv (t :: ts) =
      match iv t, mapIv iv ts with
      | some a, some as => some (a :: as)
      | _, _ => none from rfl, h1, h2]

/-- C5 (amended): for every vocabulary whose word table starts with the
three reserved markers and every line none of whose whitespace tokens is
the end-marker text, `devectorize (vectorize line vocab wrap=true) ivocab
unwrap=true` reproduces the line's in-vocabulary tokens in order, with
every out-of-vocabulary token replaced by the unknown-marker text.  (As
stated over *every* line the claim fails when a token is the end-marker
text itself, which unwrapping truncates away — see the counterexample.) -/
theorem vectorize_devectorize_roundtrip (rest : List Str) (line : Str)
    (hnoeos : ∀ w ∈ pySplit line, w ≠ eosStr) :
    devectorize
      (vectorize line (assignIds 0 (sosStr :: eosStr :: unkStr :: rest)) true)
      (ivocabFind (assignIds 0 (sosStr :: eosStr :: unkStr :: rest))) true =
    some (joinSep [' ']
      ((pySplit line).map (fun w =>
        if w ∈ sosStr :: eosStr :: unkStr :: rest then w else unkStr))) := by
  have hivf : ∀ i, ivocabFind (assignIds 0 (sosStr :: eosStr :: unkStr :: rest)) i =
      (sosStr :: eosStr :: unkStr :: rest)[i]? := by
    intro i
    rw [ivocabFind_assignIds _ 0 i, if_pos (Nat.zero_le i)]
    simp
  have hmapped : ∀ w : Str,
      ivocabFind (assignIds 0 (sosStr :: eosStr :: unkStr :: rest))
        (vocabGet (assignIds 0 (sosStr :: eosStr :: unkStr :: rest)) w) =
      some (if w ∈ sosStr :: eosStr :: unkStr :: rest then w else unkStr) := by
    intro w
    by_cases hwmem : w ∈ sosStr :: eosStr :: unkStr :: rest
    · rw [hivf, if_pos hwmem]
      exact vocabGet_mem _ w hwmem
    · rw [hivf, vocabGet_not_mem _ w hwmem, if_neg hwmem]
      simp
  have hsosmap := hmapped sosStr
  rw [if_pos (List.mem_cons_self sosStr (eosStr :: unkStr :: rest))] at hsosmap
  have heosmap := hmapped eosStr
  rw [if_pos (List.mem_cons_of_mem sosStr
    (List.mem_cons_self eosStr (unkStr :: rest)))] at heosmap
  have hmid := mapIv_all (ivocabFind (assignIds 0 (sosStr :: eosStr :: unkStr :: rest)))
    (fun w => vocabGet (assignIds 0 (sosStr :: eosStr :: unkStr :: rest)) w)
    (fun w => if w ∈ sosStr :: eosStr :: unkStr :: rest then w else unkStr)
    (pySplit line) (fun x _ => hmapped x)
  have hfull : mapIv (ivocabFind (assignIds 0 (sosStr :: eosStr :: unkStr :: rest)))
      (vectorize line (assignIds 0 (sosStr :: eosStr :: unkStr :: rest)) true) =
      some (sosStr ::
        ((pySplit line).map (fun w =>
          if w ∈ sosStr :: eosStr :: unkStr :: rest then w else unkStr) ++ [eosStr])) :=
    mapIv_cons_some _ _ _ _ _ hsosmap
      (mapIv_append_single _ _ _ _ _ hmid heosmap)
  have htake : (((pySplit line).map (fun w =>
      if w ∈ sosStr :: eosStr :: unkStr :: rest then w else unkStr)) ++
        [eosStr]).takeWhile (fun sw => sw ≠ eosStr) =
      (pySplit line).map (fun w =>
        if w ∈ sosStr :: eosStr :: unkStr :: rest then w else unkStr) := by
    refine takeWhile_all_append _ _ _ ?_ (by simp)
    intro a ha
    obtain ⟨w, hw, rfl⟩ := List.mem_map.mp ha
    by_cases hwmem : w ∈ sosStr :: eosStr :: unkStr :: rest
    · rw [if_pos hwmem]
      simpa using hnoeos w hw
    · rw [if_neg hwmem]
      decide
  unfold devectorize
  rw [hfull]
  show some (joinSep [' ']
      ((((pySplit line).map (fun w =>
        if w ∈ sosStr :: eosStr :: unkStr :: rest then w else unkStr)) ++
          [eosStr]).takeWhile (fun sw => sw ≠ eosStr))) = _
  rw [htake]

/-- C5 counterexample: with the minimal vocabulary (word table exactly the
three markers) and the line `<EOS>`, whose only token is in-vocabulary, the
round trip returns the empty text instead of reproducing the token — the
unwrap step truncates at the first end-marker it meets. -/
theorem vectorize_devectorize_roundtrip_ce :
    devectorize
      (vectorize "<EOS>".toList (assignIds 0 [sosStr, eosStr, unkStr]) true)
      (ivocabFind (assignIds 0 [sosStr, eosStr, unkStr])) true = some [] ∧
    joinSep [' '] ((pySplit "<EOS>".toList).map (fun w =>
      if w ∈ [sosStr, eosStr, unkStr] then w else unkStr)) = "<EOS>".toList ∧
    some ([] : Str) ≠ some "<EOS>".toList := by
  refine ⟨by decide, by decide, by decide⟩

/-- Witness for C5 on a concrete vocabulary (markers plus `hello`) and the
line `hello zz`: the round trip yields `hello <UNK>`. -/
theorem vectorize_devectorize_roundtrip_witness :
    devectorize
      (vectorize "hello zz".toList
        (assignIds 0 (sosStr :: eosStr :: unkStr :: ["hello".toList])) true)
      (ivocabFind (assignIds 0 (sosStr :: eosStr :: unkStr :: ["hello".toList]))) true =
    some (joinSep [' ']
      ((pySplit "hello zz".toList).map (fun w =>
        if w ∈ sosStr :: eosStr :: unkStr :: ["hello".toList] then w else unkStr))) :=
  vectorize_devectorize_roundtrip ["hello".toList] "hello zz".toList (by decide)

theorem splitAny_ne_nil (p : Char → Bool) : ∀ (s : Str), splitAny p s ≠ [] := by
  intro s
  cases s with
  | nil => simp [splitAny]
  | cons c cs =>
    show (if p c then [] :: splitAny p cs else
      (c :: (splitAny p cs).headD []) :: (splitAny p cs).tail) ≠ []
    split <;> simp

theorem splitAny_chars (p : Char → Bool) : ∀ (s : Str), ∀ t ∈ splitAny p s, ∀ c ∈ t,
    p c = false := by
  intro s
  induction s with
  | nil =>
    intro t ht c hc
    have : t = [] := by simpa [splitAny] using ht
    subst this
    exact absurd hc (List.not_mem_nil c)
  | cons d ds ih =>
    intro t ht c hc
    by_cases hd : p d
    · have ht2 : t = [] ∨ t ∈ splitAny p ds := by
        simpa [splitAny, hd] using ht
      rcases ht2 with rfl | ht2
      · exact absurd hc (List.not_mem_nil c)
      · exact ih t ht2 c hc
    · have ht2 : t = d :: (splitAny p ds).headD [] ∨ t ∈ (splitAny p ds).tail := by
        simpa [splitAny, hd] using ht
      rcases ht2 with rfl | ht2
      · rcases List.mem_cons.mp hc with rfl | hc2
        · simpa using hd
        · have hhead : (splitAny p ds).headD [] ∈ splitAny p ds := by
            rcases hsp : splitAny p ds with _ | ⟨a, as⟩
            · exact absurd hsp (splitAny_ne_nil p ds)
            · simp
          exact ih _ hhead c hc2
      · have : t ∈ splitAny p ds := by
          rcases hsp : splitAny p ds with _ | ⟨a, as⟩
          · exact absurd hsp (splitAny_ne_nil p ds)
          · rw [hsp] at ht2
            exact List.mem_cons_of_mem a (show t ∈ as from ht2)
        exact ih t this c hc

theorem pySplit_tokens (s : Str) : ∀ t ∈ pySplit s, t ≠ [] ∧ ∀ c ∈ t, isWs c = false := by
  intro t ht
  have hf := List.mem_filter.mp ht
  exact ⟨by simpa using hf.2, fun c hc => splitAny_chars isWs s t hf.1 c hc⟩

theorem splitAny_no_sep (p : Char → Bool) : ∀ (xs : Str), (∀ a ∈ xs, p a = false) →
    splitAny p xs = [xs] := by
  intro xs
  induction xs with
  | nil => intro _; rfl
  | cons x xs ih =>
    intro h
    have hx : p x = false := h x (List.mem_cons_self x xs)
    have hxs := ih (fun a ha => h a (List.mem_cons_of_mem x ha))
    show (if p x then [] :: splitAny p xs else
      (x :: (splitAny p xs).headD []) :: (splitAny p xs).tail) = [x :: xs]
    rw [hx, hxs]
    rfl

theorem splitAny_append_sep (p : Char → Bool) (c : Char) (hc : p c = true) :
    ∀ (xs ys : Str), (∀ a ∈ xs, p a = false) →
      splitAny p (xs ++ c :: ys) = xs :: splitAny p ys := by
  intro xs ys
  induction xs with
  | nil =>
    intro _
    show (if p c then [] :: splitAny p ys else _) = [] :: splitAny p ys
    rw [hc]
    simp
  | cons x xs ih =>
    intro h
    have hx : p x = false := h x (List.mem_cons_self x xs)
    have hxs := ih (fun a ha => h a (List.mem_cons_of_mem x ha))
    show (if p x then [] :: splitAny p (xs ++ c :: ys) else
      (x :: (splitAny p (xs ++ c :: ys)).headD []) ::
        (splitAny p (xs ++ c :: ys)).tail) = (x :: xs) :: splitAny p ys
    rw [hx, hxs]
    rfl

theorem splitAny_joinSep (p : Char → Bool) (c : Char) (hc : p c = true) :
    ∀ (ls : List Str), (∀ l ∈ ls, ∀ a ∈ l, p a = false) → ls ≠ [] →
      splitAny p (joinSep [c] ls) = ls := by
  intro ls
  induction ls with
  | nil => intro _ hne; exact absurd rfl hne
  | cons l ls ih =>
    intro h _
    cases ls with
    | nil =>
      show splitAny p l = [l]
      exact splitAny_no_sep p l (h l (List.mem_cons_self l []))
    | cons l2 ls2 =>
      show splitAny p (l ++ [c] ++ joinSep [c] (l2 :: ls2)) = l :: l2 :: ls2
      rw [List.append_assoc]
      show splitAny p (l ++ c :: joinSep [c] (l2 :: ls2)) = l :: l2 :: ls2
      rw [splitAny_append_sep p c hc l _ (h l (List.mem_cons_self l (l2 :: ls2))),
        ih (fun m hm => h m (List.mem_cons_of_mem l hm)) (by simp)]

theorem natReprAux_chars : ∀ (fuel n : Nat), ∀ c ∈ natReprAux fuel n,
    c ≠ '\n' ∧ c ≠ '\t' := by
  have hd : ∀ k, k < 10 → digitChar k ≠ '\n' ∧ digitChar k ≠ '\t' := by decide
  intro fuel
  induction fuel with
  | zero => intro n c hc; exact absurd hc (List.not_mem_nil c)
  | succ fuel ih =>
    intro n c hc
    by_cases hn : n < 10
    · have : c = digitChar n := by simpa [natReprAux, hn] using hc
      subst this
      exact hd n hn
    · have hc2 : c ∈ natReprAux fuel (n / 10) ++ [digitChar (n % 10)] := by
        simpa [natReprAux, hn] using hc
      rcases List.mem_append.mp hc2 with hc3 | hc3
      · exact ih (n / 10) c hc3
      · have : c = digitChar (n % 10) := by simpa using hc3
        subst this
        exact hd _ (Nat.mod_lt n (by omega))

theorem natRepr_chars (n : Nat) : ∀ c ∈ natRepr n, c ≠ '\n' ∧ c ≠ '\t' :=
  natReprAux_chars (n + 1) n

theorem bump_keys : ∀ (acc : List (Str × Nat)) (w : Str) (p : Str × Nat),
    p ∈ bump acc w → p.1 = w ∨ ∃ q ∈ acc, p.1 = q.1 := by
  intro acc
  induction acc with
  | nil =>
    intro w p hp
    have : p = (w, 1) := by simpa [bump] using hp
    subst this
    exact Or.inl rfl
  | cons q acc ih =>
    intro w p hp
    obtain ⟨q1, q2⟩ := q
    by_cases hq : q1 = w
    · have : p ∈ (q1, q2 + 1) :: acc := by simpa [bump, hq] using hp
      rcases List.mem_cons.mp this with rfl | hmem
      · exact Or.inr ⟨(q1, q2), List.mem_cons_self _ _, rfl⟩
      · exact Or.inr ⟨p, List.mem_cons_of_mem _ hmem, rfl⟩
    · have : p ∈ (q1, q2) :: bump acc w := by simpa [bump, hq] using hp
      rcases List.mem_cons.mp this with rfl | hmem
      · exact Or.inr ⟨(q1, q2), List.mem_cons_self _ _, rfl⟩
      · rcases ih w p hmem with h1 | ⟨r, hr, hr2⟩
        · exact Or.inl h1
        · exact Or.inr ⟨r, List.mem_cons_of_mem _ hr, hr2⟩

theorem counter_keys : ∀ (ws : List Str) (acc : List (Str × Nat)) (p : Str × Nat),
    p ∈ ws.foldl bump acc → (∃ q ∈ acc, p.1 = q.1) ∨ ∃ w ∈ ws, p.1 = w := by
  intro ws
  induction ws with
  | nil => intro acc p hp; exact Or.inl ⟨p, hp, rfl⟩
  | cons w ws ih =>
    intro acc p hp
    rcases ih (bump acc w) p hp with ⟨q, hq, hq2⟩ | ⟨u, hu, hu2⟩
    · rcases bump_keys acc w q hq with h1 | ⟨r, hr, hr2⟩
      · exact Or.inr ⟨w, List.mem_cons_self w ws, hq2.trans h1⟩
      · exact Or.inl ⟨r, hr, hq2.trans hr2⟩
    · exact Or.inr ⟨u, List.mem_cons_of_mem w hu, hu2⟩

theorem build_vocab_tokens (files : List Str) :
    ∀ p ∈ build_vocab files, p.1 ≠ [] ∧ ∀ c ∈ p.1, isWs c = false := by
  intro p hp
  rcases counter_keys _ [] p hp with ⟨q, hq, _⟩ | ⟨w, hw, hw2⟩
  · exact absurd hq (List.not_mem_nil q)
  · obtain ⟨line, _, hline⟩ := List.mem_flatMap.mp hw
    have := pySplit_tokens line w hline
    rw [hw2]
    exact this

theorem strip_tab_entry (tok : Str) (count : Nat) (htok : ∀ c ∈ tok, c ≠ '\t') :
    (splitAny (fun c => c = '\t') (tok ++ '\t' :: natRepr count)).headD [] = tok := by
  rw [splitAny_append_sep (fun c => decide (c = '\t')) '\t' (by simp) tok _
    (fun a ha => by simpa using htok a ha)]
  rfl

theorem strip_tab_free (l : Str) (hl : ∀ c ∈ l, c ≠ '\t') :
    (splitAny (fun c => c = '\t') l).headD [] = l := by
  rw [splitAny_no_sep (fun c => decide (c = '\t')) l (fun a ha => by simpa using hl a ha)]
  rfl

/-- C6: for every corpus set, building the frequency table, persisting it
and loading it back yields a vocabulary in which ids 0, 1 and 2 are exactly
the start, end and unknown markers and every other observed token carries a
sequential id starting at 3 following the table sorted by count; the sorted
table's counts are non-increasing and it is a permutation of the built
table, so every observed token appears, ordered by non-increasing corpus
frequency. -/
theorem vocab_build_persist_load (files : List Str) :
    read_vocab (write_vocab (build_vocab files)) =
      (sosStr, 0) :: (eosStr, 1) :: (unkStr, 2) ::
        assignIds 3 ((sortByCountDesc (build_vocab files)).map Prod.fst) ∧
    (sortByCountDesc (build_vocab files)).Pairwise (fun p q => q.2 ≤ p.2) ∧
    (sortByCountDesc (build_vocab files)).Perm (build_vocab files) := by
  have hperm : (sortByCountDesc (build_vocab files)).Perm (build_vocab files) :=
    perm_isort _ _
  have hS : ∀ p ∈ sortByCountDesc (build_vocab files),
      p.1 ≠ [] ∧ ∀ c ∈ p.1, isWs c = false := by
    intro p hp
    exact build_vocab_tokens files p (hperm.mem_iff.mp hp)
  have hSnl : ∀ p ∈ sortByCountDesc (build_vocab files), ∀ c ∈ p.1, c ≠ '\n' := by
    intro p hp c hc hceq
    have := (hS p hp).2 c hc
    rw [hceq] at this
    simp [isWs] at this
  have hStab : ∀ p ∈ sortByCountDesc (build_vocab files), ∀ c ∈ p.1, c ≠ '\t' := by
    intro p hp c hc hceq
    have := (hS p hp).2 c hc
    rw [hceq] at this
    simp [isWs] at this
  have hlineNl : ∀ l ∈ (sortByCountDesc (build_vocab files)).map
      (fun p => p.1 ++ '\t' :: natRepr p.2), ∀ a ∈ l, (decide (a = '\n')) = false := by
    intro l hl a ha
    obtain ⟨p, hp, rfl⟩ := List.mem_map.mp hl
    rcases List.mem_append.mp ha with ha2 | ha2
    · simpa using hSnl p hp a ha2
    · rcases List.mem_cons.mp ha2 with rfl | ha3
      · simp
      · simpa using (natRepr_chars p.2 a ha3).1
  have hlineNe : ∀ l ∈ (sortByCountDesc (build_vocab files)).map
      (fun p => p.1 ++ '\t' :: natRepr p.2), l ≠ [] := by
    intro l hl
    obtain ⟨p, hp, rfl⟩ := List.mem_map.mp hl
    simp
  have hsosc : ∀ a ∈ sosStr, (decide (a = '\n')) = false := by decide
  have heosc : ∀ a ∈ eosStr, (decide (a = '\n')) = false := by decide
  have hunkc : ∀ a ∈ unkStr, (decide (a = '\n')) = false := by decide
  have hsplit : splitAny (fun c => c = '\n') (write_vocab (build_vocab files)) =
      sosStr :: eosStr :: unkStr ::
        splitAny (fun c => c = '\n')
          (joinSep ['\n'] ((sortByCountDesc (build_vocab files)).map
            (fun p => p.1 ++ '\t' :: natRepr p.2))) := by
    show splitAny (fun c => decide (c = '\n'))
        (sosStr ++ '\n' :: (eosStr ++ '\n' :: (unkStr ++ '\n' ::
          joinSep ['\n'] ((sortByCountDesc (build_vocab files)).map
            (fun p => p.1 ++ '\t' :: natRepr p.2))))) = _
    rw [splitAny_append_sep _ '\n' (by simp) sosStr _ hsosc,
      splitAny_append_sep _ '\n' (by simp) eosStr _ heosc,
      splitAny_append_sep _ '\n' (by simp) unkStr _ hunkc]
  refine ⟨?_, ?_, hperm⟩
  · rcases hScase : sortByCountDesc (build_vocab files) with _ | ⟨p0, S2⟩
    · have hlines : fileLines (write_vocab (build_vocab files)) =
          [sosStr, eosStr, unkStr] := by
        unfold fileLines
        rw [hsplit, hScase]
        rfl
      unfold read_vocab
      rw [hlines]
      show assignIds 0 [(splitAny (fun c => c = '\t') sosStr).headD [],
        (splitAny (fun c => c = '\t') eosStr).headD [],
        (splitAny (fun c => c = '\t') unkStr).headD []] = _
      rw [strip_tab_free sosStr (by decide), strip_tab_free eosStr (by decide),
        strip_tab_free unkStr (by decide)]
      rfl
    · have hjoin : splitAny (fun c => c = '\n')
          (joinSep ['\n'] ((sortByCountDesc (build_vocab files)).map
            (fun p => p.1 ++ '\t' :: natRepr p.2))) =
          (sortByCountDesc (build_vocab files)).map
            (fun p => p.1 ++ '\t' :: natRepr p.2) := by
        refine splitAny_joinSep _ '\n' (by simp) _ hlineNl ?_
        rw [hScase]
        simp
      have hlines : fileLines (write_vocab (build_vocab files)) =
          sosStr :: eosStr :: unkStr ::
            (sortByCountDesc (build_vocab files)).map
              (fun p => p.1 ++ '\t' :: natRepr p.2) := by
        unfold fileLines
        rw [hsplit, hjoin]
        have hnotlast : ¬ ((sosStr :: eosStr :: unkStr ::
            (sortByCountDesc (build_vocab files)).map
              (fun p => p.1 ++ '\t' :: natRepr p.2)).getLast? = some []) := by
          intro hlast
          have hmem := List.mem_of_getLast?_eq_some hlast
          rcases List.mem_cons.mp hmem with h1 | hmem
          · exact absurd h1.symm (by decide)
          rcases List.mem_cons.mp hmem with h1 | hmem
          · exact absurd h1.symm (by decide)
          rcases List.mem_cons.mp hmem with h1 | hmem
          · exact absurd h1.symm (by decide)
          · exact absurd rfl (hlineNe [] hmem)
        rw [if_neg hnotlast]
      unfold read_vocab
      rw [hlines]
      show assignIds 0 ((splitAny (fun c => c = '\t') sosStr).headD [] ::
        (splitAny (fun c => c = '\t') eosStr).headD [] ::
        (splitAny (fun c => c = '\t') unkStr).headD [] ::
        ((sortByCountDesc (build_vocab files)).map
          (fun p => p.1 ++ '\t' :: natRepr p.2)).map
            (fun k => (splitAny (fun c => c = '\t') k).headD [])) = _
      rw [strip_tab_free sosStr (by decide), strip_tab_free eosStr (by decide),
        strip_tab_free unkStr (by decide), List.map_map]
      have hmapeq : ((sortByCountDesc (build_vocab files)).map
          ((fun k => (splitAny (fun c => c = '\t') k).headD []) ∘
            (fun p => p.1 ++ '\t' :: natRepr p.2))) =
          (sortByCountDesc (build_vocab files)).map Prod.fst := by
        refine List.map_congr_left ?_
        intro p hp
        exact strip_tab_entry p.1 p.2 (hStab p hp)
      rw [hmapeq, hScase]
      rfl
  · have hpw := @pairwise_isort (Str × Nat) (fun p q => Nat.ble q.2 p.2)
      (fun a b c h1 h2 => by
        simp only [Nat.ble_eq] at h1 h2 ⊢
        omega)
      (fun a b => by
        simp only [Nat.ble_eq]
        omega)
      (build_vocab files)
    exact hpw.imp (fun h => by simpa [Nat.ble_eq] using h)
